import Mathlib

/-!
Verification of the progressive stream-to-render pipeline of the chat
website builder (frontend `src/app/page.tsx`).

Strings are modelled as `List Char`.  The client-side pipeline of
`handleSend` is embedded as executable functions:

* `extract` models the per-delta content extraction: first the fenced
  regex (an `html`-tagged code fence: opening marker, lazy body, closing
  marker), then the case-insensitive raw-document regex
  (doctype or root tag, lazy body, closing root tag or end of input),
  with JavaScript leftmost-first, lazy-quantifier match semantics.
* `processLine` / `processChunk` / `processStream` model the streaming
  read loop: each read chunk is split on newlines on its own (the source
  keeps no carry-over between reads), each line is checked for the
  `data: ` marker, the `[DONE]` sentinel is skipped, and the payload is
  parsed as a JSON envelope whose `content` field (when present,
  non-empty) is appended to the accumulated buffer.
* `handleSend` models one chat turn over an abstract fetch outcome.
* `handleMouseMove` / `paneStep` model the split-pane drag controller,
  with pixel geometry over `ℚ`.  (JavaScript numbers that fall out of
  the clamp interval, including NaN and infinities from a zero-width
  container, are not applied; in the `ℚ` model division by zero yields
  0, which the same clamp check also rejects.)

`jsonParse` models `JSON.parse` on the full JSON grammar (strings with
standard escapes, numbers, booleans, null, arrays, objects), so that a
payload fails to parse in the model exactly when `JSON.parse` throws.
`contentOf` then models `if (parsed.content)` and the string coercion of
`accumulatedContent += parsed.content`: a truthy `content` of any JSON
type is appended (strings as such, numbers and booleans printed, objects
as `[object Object]`, arrays comma-joined).  Numbers are carried as
exact rationals: the rounding to a double and the double's printing
rules are not modelled, a divergence observable only for extreme
literals (underflowing exponents, more than 17 significant digits, or
magnitudes in exponent-notation range) and on which no theorem
depends.
-/

namespace AiRag

/-- `true` iff `pat` is a prefix of `s` (models `String.startsWith`). -/
def startsWithSeq : List Char → List Char → Bool
  | [], _ => true
  | _ :: _, [] => false
  | p :: ps, c :: cs => p == c && startsWithSeq ps cs

/-- `true` iff `pat` occurs as a contiguous segment of `s`. -/
def containsSeq (pat : List Char) : List Char → Bool
  | [] => startsWithSeq pat []
  | c :: rest => startsWithSeq pat (c :: rest) || containsSeq pat rest

theorem startsWithSeq_iff (p s : List Char) :
    startsWithSeq p s = true ↔ ∃ t, s = p ++ t := by
  induction p generalizing s with
  | nil => simp [startsWithSeq]
  | cons x xs ih =>
    cases s with
    | nil =>
      simp [startsWithSeq]
    | cons c cs =>
      simp only [startsWithSeq, Bool.and_eq_true, beq_iff_eq, ih]
      constructor
      · rintro ⟨rfl, t, rfl⟩
        exact ⟨t, rfl⟩
      · rintro ⟨t, ht⟩
        simp only [List.cons_append, List.cons.injEq] at ht
        exact ⟨ht.1.symm, t, ht.2⟩

theorem startsWithSeq_append (p t : List Char) :
    startsWithSeq p (p ++ t) = true :=
  (startsWithSeq_iff p (p ++ t)).mpr ⟨t, rfl⟩

theorem containsSeq_iff (p s : List Char) :
    containsSeq p s = true ↔ ∃ a b, s = a ++ p ++ b := by
  induction s with
  | nil =>
    simp only [containsSeq, startsWithSeq_iff]
    constructor
    · rintro ⟨t, ht⟩
      exact ⟨[], t, by simpa using ht⟩
    · rintro ⟨a, b, h⟩
      rw [eq_comm, List.append_eq_nil, List.append_eq_nil] at h
      exact ⟨[], by simp [h.1.2, h.2]⟩
  | cons c cs ih =>
    simp only [containsSeq, Bool.or_eq_true, startsWithSeq_iff, ih]
    constructor
    · rintro (⟨t, ht⟩ | ⟨a, b, rfl⟩)
      · exact ⟨[], t, by simpa using ht⟩
      · exact ⟨c :: a, b, by simp⟩
    · rintro ⟨a, b, h⟩
      cases a with
      | nil =>
        exact Or.inl ⟨b, by simpa using h⟩
      | cons a0 as =>
        simp only [List.cons_append, List.cons.injEq] at h
        exact Or.inr ⟨as, b, h.2⟩

theorem drop_len_append (l₁ l₂ : List Char) :
    (l₁ ++ l₂).drop l₁.length = l₂ := by
  induction l₁ with
  | nil => simp
  | cons x xs ih => simp [ih]

/-- A backtick character. -/
def bq : Char := Char.ofNat 96

/-- Opening marker of the fenced-HTML regex. -/
def fenceOpen : List Char := [bq, bq, bq, 'h', 't', 'm', 'l', '\n']

/-- Closing marker of the fenced-HTML regex. -/
def fenceClose : List Char := ['\n', bq, bq, bq]

/-- Inner content up to (excluding) the earliest closing fence marker;
`none` when no closing marker occurs.  Models the lazy group of the
fenced regex. -/
def findClose : List Char → Option (List Char)
  | [] => Option.none
  | c :: rest =>
    if startsWithSeq fenceClose (c :: rest) then some []
    else
      match findClose rest with
      | some x => some (c :: x)
      | Option.none => Option.none

/-- Try the fenced regex anchored at the head of `s`. -/
def fencedAt (s : List Char) : Option (List Char) :=
  if startsWithSeq fenceOpen s then findClose (s.drop fenceOpen.length)
  else Option.none

/-- Leftmost fenced-regex match over the whole buffer: the inner content
of the first fence (models `accumulatedContent.match` with the fenced
pattern, capture group 1). -/
def fencedSearch : List Char → Option (List Char)
  | [] => Option.none
  | c :: rest =>
    match fencedAt (c :: rest) with
    | some x => some x
    | Option.none => fencedSearch rest

/-- ASCII lowering, the canonicalisation the case-insensitive regex flag
applies to the ASCII literals of the raw-document pattern. -/
def lowerChar (c : Char) : Char :=
  if 'A' ≤ c ∧ c ≤ 'Z' then Char.ofNat (c.toNat + 32) else c

/-- Case-insensitive analogue of `startsWithSeq`. -/
def startsWithCi : List Char → List Char → Bool
  | [], _ => true
  | _ :: _, [] => false
  | p :: ps, c :: cs => lowerChar p == lowerChar c && startsWithCi ps cs

def doctypeLit : List Char := "<!DOCTYPE html>".toList

def htmlOpenLit : List Char := "<html".toList

def htmlCloseLit : List Char := "</html>".toList

/-- Characters up to and including the first `>` of `s`, with the rest;
models the lazy `[\s\S]*?>` tail of the root-tag alternative. -/
def upToGt : List Char → Option (List Char × List Char)
  | [] => Option.none
  | c :: rest =>
    if c == '>' then some ([c], rest)
    else
      match upToGt rest with
      | some (p, r) => some (c :: p, r)
      | Option.none => Option.none

/-- The lazy middle of the raw regex and its closing alternative: up to
and including the earliest case-insensitive `</html>`, or the whole rest
when no closing tag occurs (the `$` alternative). -/
def middleClose : List Char → List Char
  | [] => []
  | c :: rest =>
    if startsWithCi htmlCloseLit (c :: rest) then (c :: rest).take htmlCloseLit.length
    else c :: middleClose rest

/-- Try the raw-document regex anchored at the head of `s`: doctype
alternative first, then the root-tag alternative; returns the whole
match (group 0). -/
def rawAt (s : List Char) : Option (List Char) :=
  if startsWithCi doctypeLit s then
    some (s.take doctypeLit.length ++ middleClose (s.drop doctypeLit.length))
  else if startsWithCi htmlOpenLit s then
    match upToGt (s.drop htmlOpenLit.length) with
    | some (p, r) => some (s.take htmlOpenLit.length ++ p ++ middleClose r)
    | Option.none => Option.none
  else Option.none

/-- Leftmost raw-document match over the whole buffer (models the
`directHtmlMatch` regex, group 0). -/
def rawSearch : List Char → Option (List Char)
  | [] => Option.none
  | c :: rest =>
    match rawAt (c :: rest) with
    | some m => some m
    | Option.none => rawSearch rest

inductive Confidence
  | fenced
  | rawFallback
  | none
deriving DecidableEq

structure ExtractionResult where
  html : Option (List Char)
  confidence : Confidence
deriving DecidableEq

/-- The raw-fallback half of the extraction (the `else` branch of the
source: only the raw-document regex is consulted). -/
def rawResult (s : List Char) : ExtractionResult :=
  match rawSearch s with
  | some m => ⟨some m, Confidence.rawFallback⟩
  | Option.none => ⟨Option.none, Confidence.none⟩

/-- Content extraction over the accumulated buffer: the fenced regex is
tried first; on failure the extraction falls through to the raw-document
regex. -/
def extract (s : List Char) : ExtractionResult :=
  match fencedSearch s with
  | some inner => ⟨some inner, Confidence.fenced⟩
  | Option.none => rawResult s

/-- Hexadecimal digit value, for the `\u` escape of JSON strings. -/
def hexVal (c : Char) : Option Nat :=
  if '0' ≤ c ∧ c ≤ '9' then some (c.toNat - '0'.toNat)
  else if 'a' ≤ c ∧ c ≤ 'f' then some (c.toNat - 'a'.toNat + 10)
  else if 'A' ≤ c ∧ c ≤ 'F' then some (c.toNat - 'A'.toNat + 10)
  else Option.none

/-- Single-character JSON string escapes. -/
def escChar (c : Char) : Option Char :=
  if c = '"' then some '"'
  else if c = '\\' then some '\\'
  else if c = '/' then some '/'
  else if c = 'b' then some (Char.ofNat 8)
  else if c = 'f' then some (Char.ofNat 12)
  else if c = 'n' then some '\n'
  else if c = 'r' then some '\r'
  else if c = 't' then some '\t'
  else Option.none

/-- JSON string body after the opening quote: the decoded characters and
the input remaining after the closing quote. -/
def parseJStrBody : List Char → Option (List Char × List Char)
  | [] => Option.none
  | '"' :: rest => some ([], rest)
  | '\\' :: 'u' :: h1 :: h2 :: h3 :: h4 :: rest =>
    match hexVal h1, hexVal h2, hexVal h3, hexVal h4 with
    | some a, some b, some c, some d =>
      (match parseJStrBody rest with
       | some (sres, r) =>
         some (Char.ofNat (4096 * a + 256 * b + 16 * c + d) :: sres, r)
       | Option.none => Option.none)
    | _, _, _, _ => Option.none
  | '\\' :: e :: rest =>
    (match escChar e with
     | some d =>
       (match parseJStrBody rest with
        | some (sres, r) => some (d :: sres, r)
        | Option.none => Option.none)
     | Option.none => Option.none)
  | c :: rest =>
    if c.toNat < 32 then Option.none
    else
      match parseJStrBody rest with
      | some (sres, r) => some (c :: sres, r)
      | Option.none => Option.none

/-- JSON whitespace skipping. -/
def skipWs (s : List Char) : List Char :=
  s.dropWhile (fun c => c == ' ' || c == '\t' || c == '\n' || c == '\r')

/-- A parsed JSON value.  Numbers carry the exact rational value of the
literal; the rounding to a double that `JSON.parse` performs is not
modelled (see `ratToDecimal` and `truthy` for the two places where that
could in principle be observed). -/
inductive Json
  | null
  | bool (b : Bool)
  | num (q : ℚ)
  | str (s : List Char)
  | arr (xs : List Json)
  | obj (kvs : List (List Char × Json))

/-- Value of a digit run. -/
def digitsVal (ds : List Char) : Nat :=
  ds.foldl (fun n c => n * 10 + (c.toNat - '0'.toNat)) 0

def applyNeg (neg : Bool) (q : ℚ) : ℚ :=
  if neg then -q else q

/-- Optional exponent part of a JSON number, applied to the value
accumulated so far. -/
def parseExp (neg : Bool) (v : ℚ) (s : List Char) : Option (ℚ × List Char) :=
  match s with
  | 'e' :: r =>
    (match (match r with
            | '+' :: t => some (false, t)
            | '-' :: t => some (true, t)
            | _ => some (false, r) : Option (Bool × List Char)) with
     | some (esign, r2) =>
       (match r2.span Char.isDigit with
        | (es, r3) =>
          if es.isEmpty then Option.none
          else
            some (applyNeg neg
              (if esign then v / 10 ^ digitsVal es else v * 10 ^ digitsVal es), r3))
     | Option.none => Option.none)
  | 'E' :: r =>
    (match (match r with
            | '+' :: t => some (false, t)
            | '-' :: t => some (true, t)
            | _ => some (false, r) : Option (Bool × List Char)) with
     | some (esign, r2) =>
       (match r2.span Char.isDigit with
        | (es, r3) =>
          if es.isEmpty then Option.none
          else
            some (applyNeg neg
              (if esign then v / 10 ^ digitsVal es else v * 10 ^ digitsVal es), r3))
     | Option.none => Option.none)
  | _ => some (applyNeg neg v, s)

/-- A JSON number literal at the head of `s` (strict grammar: no leading
zeros, no bare sign, fraction and exponent digits required when their
markers are present), with its exact rational value. -/
def parseNumber (s : List Char) : Option (ℚ × List Char) :=
  let (neg, s1) :=
    match s with
    | '-' :: r => (true, r)
    | _ => (false, s)
  match s1.span Char.isDigit with
  | (ds, r2) =>
    if ds.isEmpty then Option.none
    else
      match ds with
      | '0' :: _ :: _ => Option.none
      | _ =>
        let intVal : ℚ := (digitsVal ds : ℚ)
        match r2 with
        | '.' :: r3 =>
          (match r3.span Char.isDigit with
           | (fs, r4) =>
             if fs.isEmpty then Option.none
             else
               parseExp neg (intVal + (digitsVal fs : ℚ) / 10 ^ fs.length) r4)
        | _ => parseExp neg intVal r2

def nullLit : List Char := "null".toList

def trueLit : List Char := "true".toList

def falseLit : List Char := "false".toList

mutual

/-- A JSON value at the head of `s` (after whitespace), fuelled; every
recursive call consumes at least one input character per unit of fuel,
so fuel `length + 1` never runs out. -/
def parseJsonValue : Nat → List Char → Option (Json × List Char)
  | 0, _ => Option.none
  | fuel + 1, s =>
    match skipWs s with
    | [] => Option.none
    | c :: rest =>
      if c = '"' then
        match parseJStrBody rest with
        | some (v, r) => some (Json.str v, r)
        | Option.none => Option.none
      else if c = '\x7b' then
        match skipWs rest with
        | '\x7d' :: r2 => some (Json.obj [], r2)
        | _ =>
          (match parseJsonMembers fuel rest with
           | some (kvs, r2) => some (Json.obj kvs, r2)
           | Option.none => Option.none)
      else if c = '[' then
        match skipWs rest with
        | ']' :: r2 => some (Json.arr [], r2)
        | _ =>
          (match parseJsonElems fuel rest with
           | some (xs, r2) => some (Json.arr xs, r2)
           | Option.none => Option.none)
      else if startsWithSeq nullLit (c :: rest) then
        some (Json.null, (c :: rest).drop nullLit.length)
      else if startsWithSeq trueLit (c :: rest) then
        some (Json.bool true, (c :: rest).drop trueLit.length)
      else if startsWithSeq falseLit (c :: rest) then
        some (Json.bool false, (c :: rest).drop falseLit.length)
      else if c = '-' || c.isDigit then
        match parseNumber (c :: rest) with
        | some (q, r) => some (Json.num q, r)
        | Option.none => Option.none
      else Option.none

/-- Members of a JSON object after its opening brace: string keys,
colon, arbitrary JSON values, comma-separated, up to the closing
brace. -/
def parseJsonMembers : Nat → List Char →
    Option (List (List Char × Json) × List Char)
  | 0, _ => Option.none
  | fuel + 1, s =>
    match skipWs s with
    | '"' :: r =>
      (match parseJStrBody r with
       | some (k, r2) =>
         (match skipWs r2 with
          | ':' :: r3 =>
            (match parseJsonValue fuel r3 with
             | some (v, r4) =>
               (match skipWs r4 with
                | ',' :: r5 =>
                  (match parseJsonMembers fuel r5 with
                   | some (kvs, r6) => some ((k, v) :: kvs, r6)
                   | Option.none => Option.none)
                | '\x7d' :: r5 => some ([(k, v)], r5)
                | _ => Option.none)
             | Option.none => Option.none)
          | _ => Option.none)
       | Option.none => Option.none)
    | _ => Option.none

/-- Elements of a JSON array after its opening bracket. -/
def parseJsonElems : Nat → List Char → Option (List Json × List Char)
  | 0, _ => Option.none
  | fuel + 1, s =>
    match parseJsonValue fuel s with
    | some (v, r) =>
      (match skipWs r with
       | ',' :: r2 =>
         (match parseJsonElems fuel r2 with
          | some (xs, r3) => some (v :: xs, r3)
          | Option.none => Option.none)
       | ']' :: r2 => some ([v], r2)
       | _ => Option.none)
    | Option.none => Option.none

end

/-- `JSON.parse` of a delta payload: a single JSON value spanning the
whole payload (modulo surrounding whitespace).  `Option.none` models a
thrown parse error. -/
def jsonParse (s : List Char) : Option Json :=
  match parseJsonValue (s.length + 1) s with
  | some (v, rest) => if (skipWs rest).isEmpty then some v else Option.none
  | Option.none => Option.none

/-- JavaScript truthiness of a parsed JSON value (`if (parsed.content)`).
For numbers the exact rational is tested against zero; JavaScript tests
the rounded double, which differs only when a non-zero literal underflows
to zero (such as `1e-400`). -/
def truthy : Json → Bool
  | Json.null => false
  | Json.bool b => b
  | Json.num q => !(q == 0)
  | Json.str s => !s.isEmpty
  | Json.arr _ => true
  | Json.obj _ => true

/-- Fractional decimal digits of `f ∈ [0, 1)`, fuelled; for values
parsed from JSON literals the denominator divides a power of ten, so the
expansion terminates within `fuel = denominator`. -/
def fracDigits : Nat → ℚ → List Char
  | 0, _ => []
  | fuel + 1, f =>
    if f = 0 then []
    else
      let f10 := f * 10
      let d := f10.floor
      Char.ofNat ('0'.toNat + d.toNat) :: fracDigits fuel (f10 - (d : ℚ))

def ratToDecimalNonneg (q : ℚ) : List Char :=
  let ip := q.floor.toNat
  let fp := q - (ip : ℚ)
  (Nat.repr ip).toList ++ (if fp = 0 then [] else '.' :: fracDigits q.den fp)

/-- Number-to-string coercion: the exact decimal expansion of the
value.  JavaScript instead prints the shortest round-trip decimal of the
rounded double and switches to exponent notation outside
`[1e-6, 1e21)`; the difference is unobservable for the integer and
short-decimal literals of this protocol and no theorem depends on it. -/
def ratToDecimal (q : ℚ) : List Char :=
  if q < 0 then '-' :: ratToDecimalNonneg (-q) else ratToDecimalNonneg q

mutual

/-- String coercion of `accumulatedContent += parsed.content`: strings
unchanged, booleans and numbers printed, plain objects
`[object Object]`, arrays joined with commas (null elements empty), as
`String(x)` does. -/
def jsToString : Json → List Char
  | Json.null => nullLit
  | Json.bool true => trueLit
  | Json.bool false => falseLit
  | Json.num q => ratToDecimal q
  | Json.str s => s
  | Json.obj _ => "[object Object]".toList
  | Json.arr xs => jsArrJoin xs true

/-- `Array.prototype.toString`: elements coerced and comma-separated,
`null` elements contributing the empty string. -/
def jsArrJoin : List Json → Bool → List Char
  | [], _ => []
  | Json.null :: rest, first =>
    (if first then [] else [',']) ++ jsArrJoin rest false
  | v :: rest, first =>
    (if first then [] else [',']) ++ jsToString v ++ jsArrJoin rest false

end

/-- Field lookup with JavaScript duplicate-key semantics (last wins). -/
def lookupField (k : List Char) (kvs : List (List Char × Json)) : Option Json :=
  kvs.foldl (fun acc kv => if kv.1 = k then some kv.2 else acc) Option.none

/-- The text appended for a payload line, when any: the payload must
parse as a JSON value, that value must be an object (on a parsed `null`
the member access throws a TypeError that the same catch absorbs, and
on other non-objects `parsed.content` is undefined — in every such case
the line contributes nothing), the object's `content` member must exist
and be truthy, and the appended text is its string coercion. -/
def contentOf (payload : List Char) : Option (List Char) :=
  match jsonParse payload with
  | some (Json.obj kvs) =>
    (match lookupField "content".toList kvs with
     | some v => if truthy v then some (jsToString v) else Option.none
     | Option.none => Option.none)
  | some _ => Option.none
  | Option.none => Option.none

/-- The `data: ` event marker. -/
def dataMarker : List Char := "data: ".toList

/-- The `[DONE]` sentinel terminator. -/
def doneLit : List Char := "[DONE]".toList

/-- One line of the stream loop over the state
`(accumulatedContent, previewHtml)`: non-marker lines are ignored, the
sentinel line is skipped, a parsed truthy `content` is appended to the
buffer and the extraction re-run on it; a non-`none` extraction replaces
the preview snapshot, otherwise the prior snapshot persists. -/
def processLine (st : List Char × List Char) (line : List Char) :
    List Char × List Char :=
  if startsWithSeq dataMarker line then
    let payload := line.drop dataMarker.length
    if payload = doneLit then st
    else
      match contentOf payload with
      | some c =>
        let acc := st.1 ++ c
        let res := extract acc
        (acc, match res.html with
              | some h => h
              | Option.none => st.2)
      | Option.none => st
  else st

/-- `chunk.split` on the newline character: the source splits every read
chunk on its own, with no carry-over of a partial trailing line. -/
def splitNl : List Char → List (List Char)
  | [] => [[]]
  | c :: rest =>
    if c = '\n' then [] :: splitNl rest
    else
      match splitNl rest with
      | l :: ls => (c :: l) :: ls
      | [] => [[c]]

/-- One read chunk: decoded text, split on newlines, each line fed to
`processLine`. -/
def processChunk (st : List Char × List Char) (chunk : List Char) :
    List Char × List Char :=
  (splitNl chunk).foldl processLine st

/-- The whole read loop over the sequence of decoded chunks, starting
from an empty accumulated buffer and the given preview snapshot. -/
def processStream (chunks : List (List Char)) (preview : List Char) :
    List Char × List Char :=
  chunks.foldl processChunk ([], preview)

inductive Role
  | user
  | assistant
deriving DecidableEq

structure ChatMessage where
  role : Role
  content : List Char
deriving DecidableEq

structure ChatState where
  messages : List ChatMessage
  input : List Char
  isLoading : Bool
  previewHtml : List Char
deriving DecidableEq

/-- Outcome of the `fetch` of a turn: the request throws, the response
status is not ok, the ok response has no readable body, or the body
streams the given decoded chunks. -/
inductive FetchOutcome
  | netError
  | httpError
  | noBody
  | stream (chunks : List (List Char))

/-- The fixed fallback assistant message of the error path. -/
def fallbackMessage : ChatMessage :=
  ⟨Role.assistant, "Sorry, I encountered an error. Please try again.".toList⟩

/-- Outcomes on which the turn takes the catch path. -/
def isFailureOutcome : FetchOutcome → Bool
  | FetchOutcome.stream _ => false
  | _ => true

/-- Whitespace in the sense of `String.trim` of JavaScript. -/
def isJsSpace (c : Char) : Bool :=
  c == ' ' || c == '\t' || c == '\n' || c == '\r' ||
    c == '\x0b' || c == '\x0c' || c == Char.ofNat 160 || c == Char.ofNat 65279

/-- `input.trim()`. -/
def trimJs (s : List Char) : List Char :=
  ((s.dropWhile isJsSpace).reverse.dropWhile isJsSpace).reverse

/-- One chat turn (`handleSend`) over an abstract fetch outcome.  The
second component records whether the request was issued.  A blank input
or a set busy flag rejects the turn unchanged; otherwise the user
message is appended, the input cleared, the busy flag set for the span
of the turn, and the outcome decides between the fallback message and
the accumulated assistant message; the busy flag is cleared at the
end of every path. -/
def handleSend (st : ChatState) (o : FetchOutcome) : ChatState × Bool :=
  if (trimJs st.input).isEmpty || st.isLoading then (st, false)
  else
    let msgs1 := st.messages ++ [⟨Role.user, st.input⟩]
    match o with
    | FetchOutcome.netError =>
      (⟨msgs1 ++ [fallbackMessage], [], false, st.previewHtml⟩, true)
    | FetchOutcome.httpError =>
      (⟨msgs1 ++ [fallbackMessage], [], false, st.previewHtml⟩, true)
    | FetchOutcome.noBody =>
      (⟨msgs1 ++ [fallbackMessage], [], false, st.previewHtml⟩, true)
    | FetchOutcome.stream chunks =>
      let r := processStream chunks st.previewHtml
      (⟨msgs1 ++ [⟨Role.assistant, r.1⟩], [], false, r.2⟩, true)

structure PaneState where
  isResizing : Bool
  leftPanelWidth : ℚ
deriving DecidableEq

/-- Geometry of one pointer-move: pointer abscissa and the container's
bounding box, plus whether the container ref is mounted. -/
structure MouseMoveEvent where
  clientX : ℚ
  rectLeft : ℚ
  rectWidth : ℚ
  hasContainer : Bool
deriving DecidableEq

/-- The width percentage recomputed from the pointer offset. -/
def computedWidth (e : MouseMoveEvent) : ℚ :=
  (e.clientX - e.rectLeft) / e.rectWidth * 100

/-- `handleMouseMove`: outside an active drag, or without a container,
nothing happens; otherwise the recomputed percentage is applied only
when it lies within the clamp interval, else the prior value persists. -/
def handleMouseMove (st : PaneState) (e : MouseMoveEvent) : PaneState :=
  if !st.isResizing || !e.hasContainer then st
  else if 30 ≤ computedWidth e ∧ computedWidth e ≤ 70 then
    { st with leftPanelWidth := computedWidth e }
  else st

inductive PaneEvent
  | mouseDown
  | mouseUp
  | mouseMove (e : MouseMoveEvent)

/-- The split-pane controller: press starts a drag, release ends it,
moves go through `handleMouseMove`. -/
def paneStep (st : PaneState) : PaneEvent → PaneState
  | PaneEvent.mouseDown => { st with isResizing := true }
  | PaneEvent.mouseUp => { st with isResizing := false }
  | PaneEvent.mouseMove e => handleMouseMove st e

/-- The initial pane state: not resizing, default split of 35 percent. -/
def initialPane : PaneState := ⟨false, 35⟩

/-- One content delta applied to the extraction state: the buffer grows
by the delta and the extraction is re-run on the whole buffer. -/
def stepExtract (st : List Char × ExtractionResult) (d : List Char) :
    List Char × ExtractionResult :=
  let buf := st.1 ++ d
  (buf, extract buf)

/-- Incremental extraction: fold the deltas through `stepExtract`
starting from the empty buffer, and take the final result. -/
def runIncremental (ds : List (List Char)) : ExtractionResult :=
  (ds.foldl stepExtract ([], extract [])).2

theorem foldl_stepExtract (ds : List (List Char)) (buf : List Char)
    (r : ExtractionResult) :
    ds.foldl stepExtract (buf, r) =
      (buf ++ ds.flatten, if ds.isEmpty then r else extract (buf ++ ds.flatten)) := by
  induction ds generalizing buf r with
  | nil => simp
  | cons d ds ih =>
    rw [List.foldl_cons]
    show List.foldl stepExtract (buf ++ d, extract (buf ++ d)) ds = _
    rw [ih]
    cases ds with
    | nil => simp
    | cons e es => simp [List.append_assoc]

/-- C1: for every finite sequence of content deltas, extracting once
from their concatenation yields the same `ExtractionResult` (same html
and confidence) as re-running the extraction after each delta on the
growing buffer and taking the final result. -/
theorem extraction_incremental_eq_single (ds : List (List Char)) :
    runIncremental ds = extract ds.flatten := by
  unfold runIncremental
  rw [foldl_stepExtract]
  cases ds with
  | nil => simp
  | cons d ds => simp

/-- C7: while the busy flag is set, a new turn is rejected at the input
boundary: the state (messages included) is unchanged and no request is
issued. -/
theorem busy_turn_rejected (st : ChatState) (o : FetchOutcome)
    (h : st.isLoading = true) : handleSend st o = (st, false) := by
  unfold handleSend
  rw [h]
  simp

theorem busy_turn_rejected_witness :
    (⟨[], "hi".toList, true, []⟩ : ChatState).isLoading = true ∧
      handleSend ⟨[], "hi".toList, true, []⟩ FetchOutcome.netError =
        (⟨[], "hi".toList, true, []⟩, false) :=
  ⟨rfl, busy_turn_rejected _ _ rfl⟩

/-- C10: submitting the form with an input that is empty after trimming
is rejected exactly like the busy case: the handler leaves the state
unchanged, issues no request, and the busy flag keeps its value. -/
theorem blank_input_rejected (st : ChatState) (o : FetchOutcome)
    (h : (trimJs st.input).isEmpty = true) :
    handleSend st o = (st, false) ∧
      (handleSend st o).1.isLoading = st.isLoading := by
  unfold handleSend
  rw [h]
  simp

theorem blank_input_rejected_witness :
    (trimJs "   ".toList).isEmpty = true ∧
      handleSend ⟨[], "   ".toList, false, []⟩ FetchOutcome.netError =
        (⟨[], "   ".toList, false, []⟩, false) :=
  ⟨by decide, (blank_input_rejected _ _ (by decide)).1⟩

theorem paneStep_width_mem (st : PaneState) (ev : PaneEvent)
    (h : 30 ≤ st.leftPanelWidth ∧ st.leftPanelWidth ≤ 70) :
    30 ≤ (paneStep st ev).leftPanelWidth ∧
      (paneStep st ev).leftPanelWidth ≤ 70 := by
  cases ev with
  | mouseDown => exact h
  | mouseUp => exact h
  | mouseMove e =>
    show 30 ≤ (handleMouseMove st e).leftPanelWidth ∧
      (handleMouseMove st e).leftPanelWidth ≤ 70
    unfold handleMouseMove
    split_ifs with h1 h2
    · exact h
    · exact h2
    · exact h

theorem foldl_paneStep_mem (es : List PaneEvent) (st : PaneState)
    (h : 30 ≤ st.leftPanelWidth ∧ st.leftPanelWidth ≤ 70) :
    30 ≤ (es.foldl paneStep st).leftPanelWidth ∧
      (es.foldl paneStep st).leftPanelWidth ≤ 70 := by
  induction es generalizing st with
  | nil => exact h
  | cons e es ih => exact ih _ (paneStep_width_mem st e h)

/-- C8: after every sequence of pane events starting from the default
split, the left width stays within the clamp interval; and a
pointer-move whose recomputed percentage falls outside the interval is
not applied, the prior value persisting. -/
theorem pane_width_clamped :
    (∀ es : List PaneEvent,
        30 ≤ (List.foldl paneStep initialPane es).leftPanelWidth ∧
          (List.foldl paneStep initialPane es).leftPanelWidth ≤ 70) ∧
      ∀ (st : PaneState) (e : MouseMoveEvent),
        ¬(30 ≤ computedWidth e ∧ computedWidth e ≤ 70) →
          (handleMouseMove st e).leftPanelWidth = st.leftPanelWidth := by
  constructor
  · intro es
    exact foldl_paneStep_mem es initialPane (by norm_num [initialPane])
  · intro st e he
    unfold handleMouseMove
    split_ifs <;> rfl

theorem pane_width_clamped_witness :
    ¬(30 ≤ computedWidth ⟨190, 0, 200, true⟩ ∧
        computedWidth ⟨190, 0, 200, true⟩ ≤ 70) ∧
      (handleMouseMove ⟨true, 35⟩ ⟨190, 0, 200, true⟩).leftPanelWidth = 35 :=
  ⟨by norm_num [computedWidth],
   pane_width_clamped.2 ⟨true, 35⟩ ⟨190, 0, 200, true⟩ (by norm_num [computedWidth])⟩

theorem findClose_close_exists (l x : List Char) (h : findClose l = some x) :
    ∃ a b, l = a ++ fenceClose ++ b := by
  induction l generalizing x with
  | nil => simp [findClose] at h
  | cons c rest ih =>
    rw [findClose] at h
    split at h
    · next hs =>
      obtain ⟨t, ht⟩ := (startsWithSeq_iff _ _).mp hs
      exact ⟨[], t, by simpa using ht⟩
    · cases hm : findClose rest with
      | some y =>
        obtain ⟨a, b, hab⟩ := ih y hm
        exact ⟨c :: a, b, by simp [hab]⟩
      | none => rw [hm] at h; cases h

theorem fencedSearch_close_exists (s x : List Char) (h : fencedSearch s = some x) :
    ∃ a b, s = a ++ fenceClose ++ b := by
  induction s generalizing x with
  | nil => simp [fencedSearch] at h
  | cons c rest ih =>
    rw [fencedSearch] at h
    cases hm : fencedAt (c :: rest) with
    | some y =>
      unfold fencedAt at hm
      split at hm
      · obtain ⟨a, b, hab⟩ := findClose_close_exists _ _ hm
        refine ⟨(c :: rest).take fenceOpen.length ++ a, b, ?_⟩
        conv_lhs => rw [← List.take_append_drop fenceOpen.length (c :: rest)]
        rw [hab]
        simp [List.append_assoc]
      · cases hm
    | none =>
      rw [hm] at h
      obtain ⟨a, b, hab⟩ := ih x h
      exact ⟨c :: a, b, by simp [hab]⟩

theorem fencedSearch_eq_none_of_no_close (s : List Char)
    (h : containsSeq fenceClose s = false) : fencedSearch s = Option.none := by
  cases hm : fencedSearch s with
  | some x =>
    obtain ⟨a, b, hab⟩ := fencedSearch_close_exists s x hm
    rw [(containsSeq_iff _ _).mpr ⟨a, b, hab⟩] at h
    cases h
  | none => rfl

/-- C2: a buffer that contains the opening fence marker but no closing
fence marker anywhere never yields confidence `fenced`; the extraction
falls through to the raw-fallback search. -/
theorem open_fence_without_close_not_fenced (s : List Char)
    (_hopen : containsSeq fenceOpen s = true)
    (hclose : containsSeq fenceClose s = false) :
    (extract s).confidence ≠ Confidence.fenced ∧ extract s = rawResult s := by
  have hex : extract s = rawResult s := by
    unfold extract
    rw [fencedSearch_eq_none_of_no_close s hclose]
  refine ⟨?_, hex⟩
  rw [hex]
  unfold rawResult
  cases rawSearch s <;> simp

theorem open_fence_without_close_not_fenced_witness :
    containsSeq fenceOpen (fenceOpen ++ "<p>hi".toList) = true ∧
      containsSeq fenceClose (fenceOpen ++ "<p>hi".toList) = false ∧
      (extract (fenceOpen ++ "<p>hi".toList)).confidence ≠ Confidence.fenced :=
  ⟨by decide, by decide,
   (open_fence_without_close_not_fenced _ (by decide) (by decide)).1⟩

theorem findClose_isSome (x b : List Char) :
    (findClose (x ++ (fenceClose ++ b))).isSome = true := by
  induction x with
  | nil =>
    rw [List.nil_append,
      show fenceClose ++ b = '\n' :: ([bq, bq, bq] ++ b) from rfl, findClose,
      if_pos (show startsWithSeq fenceClose ('\n' :: ([bq, bq, bq] ++ b)) = true
        from startsWithSeq_append fenceClose b)]
    rfl
  | cons c x ih =>
    rw [List.cons_append, findClose]
    split
    · rfl
    · cases hm : findClose (x ++ (fenceClose ++ b)) with
      | some y => simp [hm]
      | none => rw [hm] at ih; cases ih

theorem fencedAt_isSome (x b : List Char) :
    (fencedAt (fenceOpen ++ (x ++ (fenceClose ++ b)))).isSome = true := by
  unfold fencedAt
  rw [if_pos (startsWithSeq_append _ _), drop_len_append]
  exact findClose_isSome x b

theorem fencedSearch_isSome_append (a r : List Char)
    (h : (fencedAt r).isSome = true) :
    (fencedSearch (a ++ r)).isSome = true := by
  induction a with
  | nil =>
    rw [List.nil_append]
    cases r with
    | nil => exact absurd h (by decide)
    | cons c rest =>
      rw [fencedSearch]
      cases hm : fencedAt (c :: rest) with
      | some y => rfl
      | none => rw [hm] at h; cases h
  | cons c a ih =>
    rw [List.cons_append, fencedSearch]
    cases hm : fencedAt (c :: (a ++ r)) with
    | some y => rfl
    | none => simpa using ih

/-- C9: a buffer that contains a complete fenced block (opening marker,
body, closing marker) as well as a raw doctype or root-tag span yields
confidence `fenced`, and the html is what the fenced matcher returns:
the fenced regex is tried first and outranks the raw fallback. -/
theorem fenced_outranks_raw (s a x b : List Char)
    (hs : s = a ++ (fenceOpen ++ (x ++ (fenceClose ++ b))))
    (_hraw : containsSeq doctypeLit s = true ∨ containsSeq htmlOpenLit s = true) :
    (extract s).confidence = Confidence.fenced ∧
      (extract s).html = fencedSearch s ∧ (fencedSearch s).isSome = true := by
  have hsome : (fencedSearch s).isSome = true := by
    rw [hs]
    exact fencedSearch_isSome_append a _ (fencedAt_isSome x b)
  obtain ⟨i, hi⟩ := Option.isSome_iff_exists.mp hsome
  unfold extract
  rw [hi]
  exact ⟨rfl, rfl, rfl⟩

theorem fenced_outranks_raw_witness :
    containsSeq doctypeLit
        (fenceOpen ++ ("<!DOCTYPE html>ok".toList ++ (fenceClose ++ []))) = true ∧
      (extract (fenceOpen ++ ("<!DOCTYPE html>ok".toList ++ (fenceClose ++ [])))).confidence
        = Confidence.fenced :=
  ⟨by decide,
   (fenced_outranks_raw _ [] "<!DOCTYPE html>ok".toList [] rfl
     (Or.inl (by decide))).1⟩

/-- C4 counterexample: a stream whose `[DONE]` line is followed by a
further delta line still accumulates that delta — the ingestor does not
stop at the sentinel, contradicting the claim that no lines after the
sentinel are processed. -/
theorem sentinel_does_not_stop_cex :
    (List.foldl processLine ([], [])
        [dataMarker ++ doneLit,
         dataMarker ++ "\x7b\"content\":\"x\"\x7d".toList]).1 = "x".toList ∧
      "x".toList ≠ ([] : List Char) := by
  decide

theorem processLine_done (q : List Char × List Char) :
    processLine q (dataMarker ++ doneLit) = q := by
  unfold processLine
  rw [if_pos (startsWithSeq_append _ _)]
  simp [drop_len_append]

/-- C4 (amended): a marker-prefixed line whose payload is the sentinel
`[DONE]` is skipped without emitting a delta, and the ingestor keeps
going: lines after the sentinel are processed exactly as if the sentinel
line were absent; the turn ends only when the byte stream is
exhausted. -/
theorem sentinel_line_skipped (st : List Char × List Char)
    (ls1 ls2 : List (List Char)) :
    List.foldl processLine st (ls1 ++ (dataMarker ++ doneLit) :: ls2) =
      List.foldl processLine st (ls1 ++ ls2) := by
  rw [List.foldl_append, List.foldl_append, List.foldl_cons, processLine_done]

theorem processLine_skip (q : List Char × List Char) (p : List Char)
    (hp : jsonParse p = Option.none) :
    processLine q (dataMarker ++ p) = q := by
  by_cases hd : p = doneLit
  · subst hd
    exact processLine_done q
  · unfold processLine
    rw [if_pos (startsWithSeq_append _ _)]
    simp [drop_len_append, hd, contentOf, hp]

/-- C5: a marker-prefixed line whose payload fails to parse as the
structured envelope is skipped and only that line: the stream processed
with the malformed line in the middle equals the stream processed
without it, so deltas before and after are all accumulated and the turn
is not aborted. -/
theorem malformed_line_skipped (st : List Char × List Char)
    (ls1 ls2 : List (List Char)) (p : List Char)
    (hp : jsonParse p = Option.none) :
    List.foldl processLine st (ls1 ++ (dataMarker ++ p) :: ls2) =
      List.foldl processLine st (ls1 ++ ls2) := by
  rw [List.foldl_append, List.foldl_append, List.foldl_cons,
    processLine_skip _ _ hp]

theorem malformed_line_skipped_witness :
    jsonParse "\x7bnot json\x7d".toList = Option.none ∧
      List.foldl processLine ([], [])
          [dataMarker ++ "\x7b\"content\":\"a\"\x7d".toList,
           dataMarker ++ "\x7bnot json\x7d".toList,
           dataMarker ++ "\x7b\"content\":\"b\"\x7d".toList] =
        List.foldl processLine ([], [])
          [dataMarker ++ "\x7b\"content\":\"a\"\x7d".toList,
           dataMarker ++ "\x7b\"content\":\"b\"\x7d".toList] :=
  ⟨by rfl,
   malformed_line_skipped ([], [])
     [dataMarker ++ "\x7b\"content\":\"a\"\x7d".toList]
     [dataMarker ++ "\x7b\"content\":\"b\"\x7d".toList]
     "\x7bnot json\x7d".toList (by rfl)⟩

/-- C6: when a started turn fails — network failure, non-success status
or a success without a readable byte stream — the session appends the
fixed fallback assistant message after the user message; and on every
outcome of a started turn, failure or stream, the busy flag ends
cleared. -/
theorem turn_failure_fallback_and_busy_cleared (st : ChatState)
    (o : FetchOutcome) (hinput : (trimJs st.input).isEmpty = false)
    (hbusy : st.isLoading = false) :
    (handleSend st o).1.isLoading = false ∧
      (isFailureOutcome o = true →
        (handleSend st o).1.messages =
          st.messages ++ [⟨Role.user, st.input⟩, fallbackMessage]) := by
  cases o with
  | netError => simp [handleSend, hinput, hbusy, isFailureOutcome]
  | httpError => simp [handleSend, hinput, hbusy, isFailureOutcome]
  | noBody => simp [handleSend, hinput, hbusy, isFailureOutcome]
  | stream chunks => simp [handleSend, hinput, hbusy, isFailureOutcome]

theorem turn_failure_fallback_witness :
    (trimJs "hi".toList).isEmpty = false ∧
      (handleSend ⟨[], "hi".toList, false, []⟩ FetchOutcome.netError).1.isLoading
        = false ∧
      (handleSend ⟨[], "hi".toList, false, []⟩ FetchOutcome.netError).1.messages =
        [⟨Role.user, "hi".toList⟩, fallbackMessage] :=
  ⟨by decide,
   (turn_failure_fallback_and_busy_cleared ⟨[], "hi".toList, false, []⟩
     FetchOutcome.netError (by decide) rfl).1,
   (turn_failure_fallback_and_busy_cleared ⟨[], "hi".toList, false, []⟩
     FetchOutcome.netError (by decide) rfl).2 rfl⟩

/-- C3: the read loop splits every chunk on newlines by itself with no
carry-over buffer, so the very same bytes yield a delta when they arrive
in one read but lose it when the line is split across two reads — the
partial first half is parsed (and rejected) immediately and the second
half lacks the marker. -/
theorem split_line_delta_lost :
    (processStream ["data: \x7b\"con".toList, "tent\":\"hi\"\x7d".toList] []).1
        = [] ∧
      (processStream ["data: \x7b\"con".toList ++ "tent\":\"hi\"\x7d".toList]
            []).1 = "hi".toList := by
  decide

end AiRag
